import Mathlib

/-!
Verification of the concept-explanation backend: topic normalization,
request validation, response validation, the explanation cache and the
orchestration of the explain operation, modelled faithfully from
`backend/app.py`. Strings are modelled as Lean `String`s (lists of
characters); Python string primitives (`lower`, `strip`, `split`,
`startswith`, `in`) are modelled by executable functions below.
-/

/-- A single-quote character, used to build message and phrase literals. -/
def apos : String := String.singleton '\x27'

/-- Model of Python `str.lower` restricted to basic latin, applied per character. -/
def lowerStr (s : String) : String := String.mk (s.data.map Char.toLower)

/-- Character class of Python regex `\w`: letters, digits and underscore. -/
def isWordChar (c : Char) : Bool := c.isAlphanum || c == '_'

/-- Drop leading whitespace characters from a character list. -/
def dropWS : List Char → List Char
  | [] => []
  | c :: cs => if c.isWhitespace then dropWS cs else c :: cs

/-- Model of Python `str.strip` on a character list: drop leading and trailing whitespace. -/
def trimChars (l : List Char) : List Char := (dropWS ((dropWS l).reverse)).reverse

/-- Model of Python `str.strip` on strings. -/
def strTrim (s : String) : String := String.mk (trimChars s.data)

/-- Does `needle` occur as a contiguous sublist of the second list?  Model of
Python `needle in hay` for strings, at the character-list level. -/
def subListOf (needle : List Char) : List Char → Bool
  | [] => needle.isPrefixOf []
  | c :: cs => needle.isPrefixOf (c :: cs) || subListOf needle cs

/-- Model of Python `sub in hay` for strings. -/
def strContains (hay sub : String) : Bool := subListOf sub.data hay.data

/-- Accumulator-based scanner behind the model of Python `str.split()`: `acc`
holds the reversed characters of the word currently being read. -/
def wordsAux : List Char → List Char → List (List Char)
  | [], acc => if acc = [] then [] else [acc.reverse]
  | c :: cs, acc =>
    if c.isWhitespace then
      if acc = [] then wordsAux cs [] else acc.reverse :: wordsAux cs []
    else wordsAux cs (c :: acc)

/-- Model of Python `str.split()` with no argument, at the character-list level:
split on runs of whitespace, returning the non-empty words in order. -/
def words (l : List Char) : List (List Char) := wordsAux l []

/-- Splitting an empty list yields no words. -/
theorem words_nil : words [] = [] := rfl

/-- The scanner with a non-empty accumulator emits the pending word extended by
the maximal non-whitespace run, then restarts on the remainder. -/
theorem wordsAux_ne_nil_acc :
    ∀ (cs acc : List Char), acc ≠ [] →
      wordsAux cs acc = (acc.reverse ++ cs.takeWhile (fun d => !d.isWhitespace)) ::
        wordsAux (cs.dropWhile (fun d => !d.isWhitespace)) []
  | [], acc, h => by
    rw [wordsAux, if_neg h]
    simp [wordsAux]
  | c :: cs, acc, h => by
    by_cases hc : c.isWhitespace
    · rw [wordsAux, if_pos hc, if_neg h]
      rw [List.takeWhile_cons, if_neg (by simp [hc]), List.append_nil]
      rw [List.dropWhile_cons, if_neg (by simp [hc])]
      rw [show wordsAux (c :: cs) [] = wordsAux cs [] from by
        rw [wordsAux, if_pos hc, if_pos rfl]]
    · rw [wordsAux, if_neg hc]
      rw [wordsAux_ne_nil_acc cs (c :: acc) (by simp)]
      rw [List.takeWhile_cons, if_pos (by simp [hc])]
      rw [List.dropWhile_cons, if_pos (by simp [hc])]
      rw [List.reverse_cons, List.append_assoc]
      rfl

/-- The case equation of `words` on a cons cell, in takeWhile/dropWhile form. -/
theorem words_cons (c : Char) (cs : List Char) :
    words (c :: cs) = if c.isWhitespace then words cs
      else (c :: cs.takeWhile (fun d => !d.isWhitespace)) ::
        words (cs.dropWhile (fun d => !d.isWhitespace)) := by
  by_cases hc : c.isWhitespace
  · rw [if_pos hc]
    rw [words, words, wordsAux, if_pos hc, if_pos rfl]
  · rw [if_neg hc]
    rw [words, wordsAux, if_neg hc, wordsAux_ne_nil_acc cs [c] (by simp)]
    rfl

/-- Model of the Python space-join of a word list (single spaces between words). -/
def joinWords : List (List Char) → List Char
  | [] => []
  | [w] => w
  | w :: ws => w ++ ' ' :: joinWords ws

/-- Model of Python `s.split()` at the string level. -/
def pySplit (s : String) : List String := (words s.data).map String.mk

/-- The ordered list `prefixes_to_remove` from `normalize_topic` in the source. -/
def prefixes_to_remove : List String :=
  ["explain", "tell me", "what is", "what are", "how does", "how do",
   "describe", "define", "give me", "show me", "help me understand",
   "can you explain", "please explain", "i want to know", "help with"]

/-- The prefix-removal loop of `normalize_topic`: scan the list in order, and on
the first phrase that is a prefix of the string, remove it, strip the remainder
and stop (the loop `break`s after the first match). -/
def stripLeadingPhrase : List String → List Char → List Char
  | [], l => l
  | p :: ps, l =>
    if p.data.isPrefixOf l then trimChars (l.drop p.data.length)
    else stripLeadingPhrase ps l

/-- The state of the topic inside `normalize_topic` after lower-casing, stripping
and punctuation removal (the `re.sub` call deleting every character outside
`\w` and `\s`), before prefix removal. -/
def punctFiltered (topic : String) : List Char :=
  (trimChars (topic.data.map Char.toLower)).filter (fun c => isWordChar c || c.isWhitespace)

/-- Model of `normalize_topic` from the source: empty input maps to the empty
string; otherwise lower-case, strip, remove punctuation, remove the first
matching prefix phrase, and re-join the whitespace-split words with single
spaces. -/
def normalize_topic (topic : String) : String :=
  if topic = "" then ""
  else String.mk (joinWords (words (stripLeadingPhrase prefixes_to_remove (punctFiltered topic))))

/-- Does the string start with one of the removable prefix phrases? -/
def startsWithListed (s : String) : Bool :=
  prefixes_to_remove.any (fun p => p.data.isPrefixOf s.data)

/-- The verdict returned by the request validator: the `is_valid` flag and the
rejection message (present exactly when invalid), as in the source dicts. -/
structure ValidationVerdict where
  is_valid : Bool
  error : Option String
deriving DecidableEq, Repr

/-- The allow-list `educational_concepts` from the source. -/
def educational_concepts : List String :=
  ["machine learning", "artificial intelligence", "deep learning", "neural networks",
   "computer vision", "natural language processing", "data science", "big data",
   "cloud computing", "blockchain", "virtual reality", "augmented reality",
   "internet of things", "quantum computing", "cyber security", "software engineering",
   "web development", "mobile development", "database management", "user experience",
   "user interface", "information security", "network security",
   "quantum physics", "organic chemistry", "molecular biology", "cell biology",
   "genetic engineering", "climate change", "renewable energy", "nuclear physics",
   "astrophysics", "marine biology", "environmental science", "forensic science",
   "materials science", "biomedical engineering", "chemical engineering",
   "electrical engineering", "mechanical engineering", "civil engineering",
   "linear algebra", "differential equations", "complex analysis", "number theory",
   "graph theory", "game theory", "probability theory", "statistical analysis",
   "mathematical modeling", "supply chain", "project management", "financial markets",
   "behavioral economics", "digital marketing", "business strategy", "risk management",
   "quality assurance", "human anatomy", "medical ethics", "public health",
   "mental health", "physical therapy", "pharmaceutical science", "medical imaging",
   "surgical procedures", "preventive medicine", "art history", "world history",
   "political science", "social psychology", "cognitive psychology",
   "international relations", "environmental law", "constitutional law",
   "educational psychology"]

/-- The block-list `common_first_names` from the source. -/
def common_first_names : List String :=
  ["john", "jane", "michael", "sarah", "david", "mary", "robert", "jennifer",
   "william", "elizabeth", "james", "maria", "christopher", "susan", "daniel",
   "jessica", "matthew", "karen", "anthony", "nancy", "mark", "lisa", "donald",
   "betty", "steven", "helen", "andrew", "sandra", "joshua", "donna",
   "utkarsh", "raj", "priya", "amit", "ravi", "neha", "rahul", "pooja",
   "vikram", "anita", "alex", "chris", "sam", "pat", "jordan", "taylor",
   "morgan", "casey", "riley", "avery"]

/-- The legitimate topic-continuation second words of the two-word name heuristic. -/
def topic_continuation_words : List String :=
  ["learning", "reality", "physics", "science", "theory", "analysis", "study",
   "research", "engineering", "computing", "intelligence", "processing",
   "management", "development", "programming", "biology", "chemistry",
   "mathematics", "psychology", "history", "literature"]

/-- The `vague_questions` exact block-list from the source. -/
def vague_questions : List String :=
  ["what", "why", "how", "when", "where", "who", "which", "tell me", "explain",
   "help", "anything", "something", "nothing", "everything", "whatever",
   "stuff", "things"]

/-- Alternatives of the anchored greeting pattern from `non_educational_patterns`. -/
def greeting_phrases : List String :=
  ["hey", "hi", "hello", "what" ++ apos ++ "s up", "how are you", "good morning",
   "good evening"]

/-- Alternatives of the anchored personal-question pattern. -/
def personal_question_phrases : List String :=
  ["tell me about yourself", "who are you", "what can you do", "what is this"]

/-- Alternatives of the entertainment pattern (substring match). -/
def entertainment_terms : List String :=
  ["gossip", "celebrity", "entertainment", "movie star", "pop star", "influencer"]

/-- Alternatives of the relationships pattern (substring match). -/
def relationship_terms : List String :=
  ["dating", "relationship", "romance", "love", "crush", "boyfriend", "girlfriend"]

/-- Alternatives of the food pattern (substring match). -/
def food_terms : List String :=
  ["restaurant", "food recipe", "cooking", "menu", "pizza", "burger"]

/-- Alternatives of the commerce pattern (substring match). -/
def commerce_terms : List String :=
  ["shopping", "buying", "purchase", "sale", "discount", "price"]

/-- Alternatives of the weather pattern (substring match). -/
def weather_terms : List String :=
  ["weather", "forecast", "temperature today", "rain", "sunny"]

/-- Alternatives of the sports pattern (substring match). -/
def sports_terms : List String :=
  ["sports score", "game result", "match result", "football", "basketball"]

/-- Alternatives of the news pattern (substring match). -/
def news_terms : List String :=
  ["news", "current events", "politics today", "election", "vote"]

/-- Alternatives of the test-input pattern (substring match). -/
def test_input_terms : List String :=
  ["test", "testing", "check", "random", "trial"]

/-- The `educational_keywords` substring allow heuristic list from the source. -/
def educational_keywords : List String :=
  ["theory", "principle", "concept", "algorithm", "equation", "formula", "law",
   "theorem", "process", "method", "technique", "analysis", "synthesis",
   "research", "study", "learning", "science", "math", "physics", "chemistry",
   "biology", "history", "geography", "literature", "programming", "coding",
   "computer", "technology", "engineering", "medicine", "anatomy"]

/-- The `technical_suffixes` list from the source. -/
def technical_suffixes : List String :=
  ["ism", "ology", "tion", "sion", "ment", "ness", "ics", "ing"]

/-- Does the string start with one of the phrases (an anchored `re.search`)? -/
def startsWithAnyOf (s : String) (ps : List String) : Bool :=
  ps.any (fun p => p.data.isPrefixOf s.data)

/-- Does the string contain one of the phrases (an unanchored `re.search`)? -/
def containsAnyOf (s : String) (ps : List String) : Bool :=
  ps.any (fun p => strContains s p)

/-- The disjunction of the ten `non_educational_patterns` regexes from the
source: the first two are anchored at the start, the rest are substring
searches; all alternatives are literal phrases. -/
def non_educational_match (s : String) : Bool :=
  startsWithAnyOf s greeting_phrases || startsWithAnyOf s personal_question_phrases ||
  containsAnyOf s entertainment_terms || containsAnyOf s relationship_terms ||
  containsAnyOf s food_terms || containsAnyOf s commerce_terms ||
  containsAnyOf s weather_terms || containsAnyOf s sports_terms ||
  containsAnyOf s news_terms || containsAnyOf s test_input_terms

/-- The two-word personal-name heuristic from the source, applied to the
whitespace-split words of the lower-cased topic. -/
def twoWordPersonalName : List String → Bool
  | [first_word, second_word] =>
    decide (first_word ∈ common_first_names) &&
      decide (second_word ∉ topic_continuation_words) &&
      decide (second_word.length > 2)
  | _ => false

/-- Rejection message of the exact first-name block-list rule (echoes the topic). -/
def firstNameMsg (topic : String) : String :=
  "\"" ++ topic ++ "\" appears to be a person" ++ apos ++
    "s name. Please ask about educational topics like \"photosynthesis\", \"machine learning\", or \"quantum physics\"."

/-- Rejection message of the two-word personal-name heuristic (does not echo the topic). -/
def personalNameMsg : String :=
  "This looks like a person" ++ apos ++
    "s name. Try asking about educational concepts, scientific topics, or academic subjects instead."

/-- Rejection message of the vague-question block-list (echoes the topic). -/
def vagueMsg (topic : String) : String :=
  "Please be more specific. Instead of \"" ++ topic ++
    "\", try asking about a particular concept like \"photosynthesis\", \"calculus\", or \"machine learning\"."

/-- Rejection message of the non-educational pattern rule. -/
def nonEducationalMsg : String :=
  "I focus on educational and technical concepts. Try asking about science, technology, mathematics, history, or academic subjects."

/-- Rejection message of the final fallback (echoes the topic). -/
def tooVagueMsg (topic : String) : String :=
  "\"" ++ topic ++ "\" might be too vague. Please be more specific about the educational concept you" ++
    apos ++ "d like to learn about."

/-- Model of `validate_educational_concept` from the source: the ordered chain
of validation rules, first match decides. -/
def validate_educational_concept (topic : String) : ValidationVerdict :=
  if topic = "" then ⟨false, some "Please enter a topic to explain"⟩
  else
    let topic_lower := strTrim (lowerStr topic)
    if topic_lower.length < 2 then ⟨false, some "Topic must be at least 2 characters long"⟩
    else if topic_lower.length > 200 then ⟨false, some "Topic must be less than 200 characters"⟩
    else if topic_lower ∈ educational_concepts then ⟨true, none⟩
    else if topic_lower ∈ common_first_names then ⟨false, some (firstNameMsg topic)⟩
    else if twoWordPersonalName (pySplit topic_lower) then ⟨false, some personalNameMsg⟩
    else if topic_lower ∈ vague_questions then ⟨false, some (vagueMsg topic)⟩
    else if non_educational_match topic_lower then ⟨false, some nonEducationalMsg⟩
    else if educational_keywords.any (fun k => strContains topic_lower k) then ⟨true, none⟩
    else if (pySplit topic_lower).length > 1 ∨ topic_lower.length > 8 ∨
        technical_suffixes.any (fun suf => suf.data.isSuffixOf topic_lower.data) then ⟨true, none⟩
    else ⟨false, some (tooVagueMsg topic)⟩

/-- The `invalid_indicators` phrase list of `validate_ai_response`. -/
def invalid_indicators : List String :=
  ["appears to be a person" ++ apos ++ "s name",
   "looks like a personal name",
   "seems to be someone" ++ apos ++ "s name",
   "is a person" ++ apos ++ "s name",
   "this is a name",
   "individual" ++ apos ++ "s name",
   "appears to be asking about a person",
   "this seems to be a personal name",
   "i can" ++ apos ++ "t provide information about specific individuals",
   "i don" ++ apos ++ "t have information about this person",
   "this appears to be a personal query",
   "seems like a personal name",
   "looks like you" ++ apos ++ "re asking about a person",
   "this appears to be about a specific person",
   "i cannot provide personal information",
   "appears to be requesting information about an individual"]

/-- The `refusal_phrases` list of `validate_ai_response`. -/
def refusal_phrases : List String :=
  ["i can" ++ apos ++ "t", "i cannot", "i" ++ apos ++ "m not able",
   "i don" ++ apos ++ "t have", "not appropriate", "cannot provide",
   "unable to provide"]

/-- Model of `validate_ai_response` from the source: reject empty text, reject
text whose lower-cased form contains an invalid indicator, reject text whose
stripped length is below 100 and whose lower-cased form contains a refusal
phrase; accept otherwise.  The second argument (the original topic) is only
used for logging in the source. -/
def validate_ai_response (explanation original_topic : String) : Bool :=
  if explanation = "" then false
  else if invalid_indicators.any (fun ind => strContains (lowerStr explanation) ind) then false
  else if decide ((strTrim explanation).length < 100) &&
      refusal_phrases.any (fun p => strContains (lowerStr explanation) p) then false
  else true

/-- One row of the `explanations` table: normalized topic, lower-cased level,
explanation body (the timestamp carries no information used by the claims). -/
structure CacheEntry where
  topic : String
  level : String
  explanation : String
deriving DecidableEq, Repr

/-- Model of `save_explanation`: an upsert keyed by (normalized topic,
lower-cased level) — `INSERT OR REPLACE` under the `UNIQUE(topic, level)`
constraint replaces any existing row with the same key. -/
def save_explanation (db : List CacheEntry) (topic level explanation : String) : List CacheEntry :=
  let normalized_topic := normalize_topic topic
  (db.filter (fun e => !(e.topic == normalized_topic && e.level == lowerStr level))) ++
    [⟨normalized_topic, lowerStr level, explanation⟩]

/-- Model of `get_cached_explanation`: look up the row keyed by (normalized
topic, lower-cased level) and return its explanation, or `none`. -/
def get_cached_explanation (db : List CacheEntry) (topic level : String) : Option String :=
  (db.find? (fun e => e.topic == normalize_topic topic && e.level == lowerStr level)).map
    CacheEntry.explanation

/-- A put request as in the cache round-trip property: raw topic, raw level,
explanation. -/
structure PutReq where
  topic : String
  level : String
  explanation : String
deriving DecidableEq, Repr

/-- Run a sequence of cache writes left to right, starting from the empty store. -/
def runPuts (ps : List PutReq) : List CacheEntry :=
  ps.foldl (fun db p => save_explanation db p.topic p.level p.explanation) []

/-- The outcome of the explain operation visible to the caller. -/
inductive ExplainOutcome where
  | ok (explanation : String) (cached : Bool) (regenerated : Bool)
  | validationError (msg : String)
  | providerError (msg : String)
  | aiDetectedInvalid
deriving DecidableEq, Repr

/-- The `valid_levels` list from the explain route. -/
def valid_levels : List String := ["eli5", "student", "graduate", "advanced"]

/-- Model of the `explain_concept` route handler, over an abstract provider
(`get_ai_explanation` returns either an explanation or an error message): strip
the fields, check them, validate the topic, look up the cache unless
`force_refresh` is set, call the provider, veto via `validate_ai_response`, and
save on success.  Returns the updated store and the outcome; the returned
`cached` flag is true only on a cache hit and `regenerated` echoes
`force_refresh` on a fresh answer. -/
def explain_concept (db : List CacheEntry) (topic level : String) (force_refresh : Bool)
    (provider : String → String → Except String String) :
    List CacheEntry × ExplainOutcome :=
  let t := strTrim topic
  let l := strTrim level
  if t = "" then (db, .validationError "Topic is required")
  else if l = "" then (db, .validationError "Level is required")
  else if lowerStr l ∉ valid_levels then
    (db, .validationError "Invalid level. Must be one of: eli5, student, graduate, advanced")
  else
    let v := validate_educational_concept t
    if v.is_valid = false then (db, .validationError (v.error.getD ""))
    else
      match (if force_refresh then none else get_cached_explanation db t l) with
      | some cached_explanation => (db, .ok cached_explanation true false)
      | none =>
        match provider t l with
        | .error e => (db, .providerError e)
        | .ok explanation =>
          if validate_ai_response explanation t then
            (save_explanation db t l explanation, .ok explanation false force_refresh)
          else (db, .aiDetectedInvalid)

/-- The per-level request timeout of `get_google_ai_explanation` (seconds). -/
def google_timeout_duration (level : String) : Nat :=
  if lowerStr level ∈ ["graduate", "advanced"] then 12 else 10

/-- The per-level request timeout of `get_openrouter_explanation` (seconds). -/
def openrouter_timeout_duration (level : String) : Nat :=
  if lowerStr level ∈ ["graduate", "advanced"] then 12 else 10

/-- The word list a non-empty topic is normalized through. -/
def normWords (topic : String) : List (List Char) :=
  words (stripLeadingPhrase prefixes_to_remove (punctFiltered topic))

/-- A 50-character response containing the refusal phrase "i cannot". -/
def resp50 : String := "i cannot " ++ String.mk (List.replicate 41 'a')

/-- A 100-character response: "i cannot" padded with 92 trailing spaces; its
raw length is 100 but its stripped length is 8. -/
def resp100 : String := "i cannot" ++ String.mk (List.replicate 92 ' ')

/-- A 500-character response whose only flagged content is the sub-phrase
"i cannot". -/
def resp500 : String := "i cannot " ++ String.mk (List.replicate 491 'a')

/-- Acceptance condition of claim C6 read literally: the short-response test
uses the raw (untrimmed) length of the text, unlike the code, which strips
the text before measuring it. -/
def responseAcceptedPerClaim (s : String) : Prop :=
  s ≠ "" ∧ (∀ ind ∈ invalid_indicators, strContains (lowerStr s) ind = false) ∧
    ¬(s.length < 100 ∧ ∃ p ∈ refusal_phrases, strContains (lowerStr s) p = true)

/-- A 201-character two-word topic whose first word is a blocked first name. -/
def longNameTopic : String := "john " ++ String.mk (List.replicate 196 'b')

/-- Converting a valid code point to a character and back is the identity. -/
theorem char_toNat_ofNat_valid {n : Nat} (h : n.isValidChar) : (Char.ofNat n).toNat = n := by
  rw [Char.ofNat, dif_pos h]
  rfl

/-- Lower-casing a character twice is the same as lower-casing it once. -/
theorem char_toLower_idem (c : Char) : c.toLower.toLower = c.toLower := by
  by_cases h : c.toNat ≥ 65 ∧ c.toNat ≤ 90
  · have h1 : c.toLower = Char.ofNat (c.toNat + 32) := by
      simp only [Char.toLower]
      rw [if_pos h]
    have h2 : (Char.ofNat (c.toNat + 32)).toNat = c.toNat + 32 :=
      char_toNat_ofNat_valid (Or.inl (by omega))
    rw [h1]
    simp only [Char.toLower]
    rw [h2, if_neg (by omega)]
  · have h1 : c.toLower = c := by
      simp only [Char.toLower]
      rw [if_neg h]
    rw [h1, h1]

/-- Mapping a function that fixes every element of a list is the identity. -/
theorem map_eq_self_of_fixed {l : List α} {f : α → α} (h : ∀ a ∈ l, f a = a) :
    l.map f = l := by
  induction l with
  | nil => rfl
  | cons a t ih =>
    simp only [List.map_cons, List.cons.injEq]
    exact ⟨h a (List.mem_cons_self a t), ih (fun b hb => h b (List.mem_cons_of_mem a hb))⟩

/-- Members of `dropWS l` are members of `l`. -/
theorem mem_of_mem_dropWS {c : Char} : ∀ {l : List Char}, c ∈ dropWS l → c ∈ l
  | [], h => h
  | d :: ds, h => by
    rw [dropWS] at h
    by_cases hw : d.isWhitespace
    · rw [if_pos hw] at h
      exact List.mem_cons_of_mem d (mem_of_mem_dropWS h)
    · rwa [if_neg hw] at h

/-- Members of `trimChars l` are members of `l`. -/
theorem mem_of_mem_trimChars {c : Char} {l : List Char} (h : c ∈ trimChars l) : c ∈ l := by
  rw [trimChars, List.mem_reverse] at h
  have h2 := mem_of_mem_dropWS h
  rw [List.mem_reverse] at h2
  exact mem_of_mem_dropWS h2

/-- Dropping leading whitespace from a list that starts with a non-whitespace
character (or is empty) is the identity. -/
theorem dropWS_eq_self {l : List Char}
    (h : ∀ c t, l = c :: t → c.isWhitespace = false) : dropWS l = l := by
  cases l with
  | nil => rfl
  | cons c t =>
    rw [dropWS, if_neg]
    simp [h c t rfl]

/-- Members of the output of the prefix-removal loop are members of its input. -/
theorem mem_of_mem_stripLeadingPhrase {c : Char} :
    ∀ (ps : List String) {l : List Char}, c ∈ stripLeadingPhrase ps l → c ∈ l
  | [], _, h => h
  | p :: ps, l, h => by
    rw [stripLeadingPhrase] at h
    by_cases hp : p.data.isPrefixOf l = true
    · rw [if_pos hp] at h
      exact List.mem_of_mem_drop (mem_of_mem_trimChars h)
    · rw [if_neg hp] at h
      exact mem_of_mem_stripLeadingPhrase ps h

/-- If no phrase in the list is a prefix of `l`, the prefix-removal loop leaves
`l` unchanged. -/
theorem stripLeadingPhrase_eq_self :
    ∀ (ps : List String) {l : List Char},
      (∀ p ∈ ps, p.data.isPrefixOf l = false) → stripLeadingPhrase ps l = l
  | [], _, _ => rfl
  | p :: ps, l, h => by
    rw [stripLeadingPhrase, if_neg]
    · exact stripLeadingPhrase_eq_self ps
        (fun q hq => h q (List.mem_cons_of_mem p hq))
    · simp [h p (List.mem_cons_self p ps)]

/-- Every word produced by `words` is non-empty, contains no whitespace, and
consists of characters of the input. -/
theorem words_mem_props :
    ∀ (n : Nat) (l : List Char), l.length ≤ n →
      ∀ w ∈ words l, w ≠ [] ∧ ∀ c ∈ w, c.isWhitespace = false ∧ c ∈ l
  | 0, l, hl => by
    have : l = [] := List.eq_nil_of_length_eq_zero (Nat.le_zero.mp hl)
    subst this
    intro w hw
    simp [words_nil] at hw
  | n + 1, l, hl => by
    match l with
    | [] => intro w hw; simp [words_nil] at hw
    | c :: cs =>
      intro w hw
      rw [words_cons] at hw
      by_cases hc : c.isWhitespace
      · rw [if_pos hc] at hw
        have hlen : cs.length ≤ n := by
          simp only [List.length_cons] at hl; omega
        have := words_mem_props n cs hlen w hw
        exact ⟨this.1, fun d hd => ⟨(this.2 d hd).1, List.mem_cons_of_mem c (this.2 d hd).2⟩⟩
      · rw [if_neg hc] at hw
        rcases List.mem_cons.mp hw with h1 | h2
        · subst h1
          refine ⟨by simp, fun d hd => ?_⟩
          rcases List.mem_cons.mp hd with h3 | h4
          · rw [h3]
            exact ⟨by simpa using hc, List.mem_cons_self c cs⟩
          · have hp := List.mem_takeWhile_imp h4
            have hm := (List.takeWhile_sublist (fun d : Char => !d.isWhitespace)).mem h4
            exact ⟨by simpa using hp, List.mem_cons_of_mem c hm⟩
        · have hlen : (cs.dropWhile (fun d => !d.isWhitespace)).length ≤ n := by
            have := List.Sublist.length_le
              (List.dropWhile_sublist (l := cs) (p := fun d => !d.isWhitespace))
            simp only [List.length_cons] at hl
            omega
          have := words_mem_props n _ hlen w h2
          refine ⟨this.1, fun d hd => ⟨(this.2 d hd).1, ?_⟩⟩
          have := (List.dropWhile_sublist (l := cs) (p := fun d => !d.isWhitespace)).mem
            (this.2 d hd).2
          exact List.mem_cons_of_mem c this

/-- If the input contains a non-whitespace character, `words` is non-empty. -/
theorem words_ne_nil {l : List Char} (h : ∃ c ∈ l, c.isWhitespace = false) :
    words l ≠ [] := by
  induction l with
  | nil => rcases h with ⟨c, hc, _⟩; simp at hc
  | cons c cs ih =>
    rw [words_cons]
    by_cases hc : c.isWhitespace
    · rw [if_pos hc]
      rcases h with ⟨d, hd, hdw⟩
      rcases List.mem_cons.mp hd with h1 | h2
      · subst h1; rw [hc] at hdw; cases hdw
      · exact ih ⟨d, h2, hdw⟩
    · rw [if_neg hc]
      simp

/-- `takeWhile` keeps a list all of whose elements satisfy the predicate. -/
theorem takeWhile_all {α : Type} {p : α → Bool} :
    ∀ {l : List α}, (∀ c ∈ l, p c = true) → l.takeWhile p = l
  | [], _ => rfl
  | c :: cs, h => by
    rw [List.takeWhile_cons, if_pos (h c (List.mem_cons_self c cs))]
    rw [takeWhile_all (fun d hd => h d (List.mem_cons_of_mem c hd))]

/-- `dropWhile` empties a list all of whose elements satisfy the predicate. -/
theorem dropWhile_all {α : Type} {p : α → Bool} :
    ∀ {l : List α}, (∀ c ∈ l, p c = true) → l.dropWhile p = []
  | [], _ => rfl
  | c :: cs, h => by
    rw [List.dropWhile_cons, if_pos (h c (List.mem_cons_self c cs))]
    exact dropWhile_all (fun d hd => h d (List.mem_cons_of_mem c hd))

/-- Splitting a single non-empty whitespace-free word yields that word alone. -/
theorem words_single {w : List Char} (hne : w ≠ [])
    (hnw : ∀ c ∈ w, c.isWhitespace = false) : words w = [w] := by
  match w with
  | [] => exact absurd rfl hne
  | c :: rest =>
    rw [words_cons, if_neg (by simp [hnw c (List.mem_cons_self c rest)])]
    rw [takeWhile_all (fun d hd => by simp [hnw d (List.mem_cons_of_mem c hd)])]
    rw [dropWhile_all (fun d hd => by simp [hnw d (List.mem_cons_of_mem c hd)])]
    rw [words_nil]

/-- Splitting a non-empty whitespace-free word followed by a space yields the
word and then the splitting of the remainder. -/
theorem words_word_append {w rest : List Char} (hne : w ≠ [])
    (hnw : ∀ c ∈ w, c.isWhitespace = false) :
    words (w ++ ' ' :: rest) = w :: words rest := by
  match w with
  | [] => exact absurd rfl hne
  | c :: wt =>
    have hall : ∀ d ∈ wt, (fun d : Char => !d.isWhitespace) d = true := by
      intro d hd
      simp [hnw d (List.mem_cons_of_mem c hd)]
    rw [List.cons_append, words_cons, if_neg (by simp [hnw c (List.mem_cons_self c wt)])]
    rw [List.takeWhile_append_of_pos hall, List.dropWhile_append_of_pos hall]
    rw [List.takeWhile_cons, if_neg (by simp)]
    rw [List.dropWhile_cons, if_neg (by simp)]
    rw [List.append_nil, words_cons, if_pos (by simp)]

/-- Equation of `joinWords` on a list with at least two words. -/
theorem joinWords_cons_cons (w x : List Char) (xs : List (List Char)) :
    joinWords (w :: x :: xs) = w ++ ' ' :: joinWords (x :: xs) := rfl

/-- Re-splitting the space-joining of non-empty whitespace-free words recovers
exactly those words. -/
theorem words_joinWords :
    ∀ {ws : List (List Char)},
      (∀ w ∈ ws, w ≠ [] ∧ ∀ c ∈ w, c.isWhitespace = false) →
      words (joinWords ws) = ws
  | [], _ => by rw [joinWords, words_nil]
  | [w], h => by
    have hw := h w (List.mem_cons_self w [])
    show words w = [w]
    exact words_single hw.1 hw.2
  | w :: x :: xs, h => by
    have hw := h w (List.mem_cons_self w (x :: xs))
    rw [joinWords_cons_cons, words_word_append hw.1 hw.2]
    rw [words_joinWords (fun u hu => h u (List.mem_cons_of_mem w hu))]

/-- Every character of a space-joining is a character of one of the words or a space. -/
theorem mem_joinWords {c : Char} :
    ∀ {ws : List (List Char)}, c ∈ joinWords ws → (∃ w ∈ ws, c ∈ w) ∨ c = ' '
  | [], h => by simp [joinWords] at h
  | [w], h => Or.inl ⟨w, List.mem_cons_self w [], h⟩
  | w :: x :: xs, h => by
    rw [joinWords_cons_cons] at h
    rcases List.mem_append.mp h with h1 | h2
    · exact Or.inl ⟨w, List.mem_cons_self w (x :: xs), h1⟩
    · rcases List.mem_cons.mp h2 with h3 | h4
      · exact Or.inr h3
      · rcases mem_joinWords h4 with ⟨w', hw', hc⟩ | h5
        · exact Or.inl ⟨w', List.mem_cons_of_mem w hw', hc⟩
        · exact Or.inr h5

/-- The space-joining of a list headed by a non-empty word is non-empty. -/
theorem joinWords_ne_nil {w : List Char} {ws : List (List Char)} (h : w ≠ []) :
    joinWords (w :: ws) ≠ [] := by
  cases ws with
  | nil => simpa [joinWords] using h
  | cons x xs =>
    rw [joinWords_cons_cons]
    simp

/-- The space-joining of a list headed by `c :: wt` starts with `c`. -/
theorem joinWords_head (c : Char) (wt : List Char) (ws : List (List Char)) :
    ∃ t, joinWords ((c :: wt) :: ws) = c :: t := by
  cases ws with
  | nil => exact ⟨wt, rfl⟩
  | cons x xs => exact ⟨wt ++ ' ' :: joinWords (x :: xs), rfl⟩

/-- The reversed space-joining of non-empty whitespace-free words starts with a
non-whitespace character (the last character of the last word). -/
theorem joinWords_reverse_head :
    ∀ (ws : List (List Char)), ws ≠ [] →
      (∀ w ∈ ws, w ≠ [] ∧ ∀ c ∈ w, c.isWhitespace = false) →
      ∃ c t, (joinWords ws).reverse = c :: t ∧ c.isWhitespace = false
  | [], h, _ => absurd rfl h
  | [w], _, hp => by
    have hw := hp w (List.mem_cons_self w [])
    have hj : joinWords [w] = w := rfl
    rw [hj]
    cases hrev : w.reverse with
    | nil => exact absurd (List.reverse_eq_nil_iff.mp hrev) hw.1
    | cons c t =>
      refine ⟨c, t, rfl, ?_⟩
      have hcm : c ∈ w.reverse := by rw [hrev]; exact List.mem_cons_self c t
      exact hw.2 c (List.mem_reverse.mp hcm)
  | w :: x :: xs, _, hp => by
    obtain ⟨c, t, hrev, hc⟩ := joinWords_reverse_head (x :: xs) (by simp)
      (fun u hu => hp u (List.mem_cons_of_mem w hu))
    refine ⟨c, t ++ ' ' :: w.reverse, ?_, hc⟩
    rw [joinWords_cons_cons, List.reverse_append, List.reverse_cons, hrev]
    simp

/-- Stripping whitespace from both ends of a space-joining of non-empty
whitespace-free words is the identity. -/
theorem trimChars_joinWords {ws : List (List Char)}
    (hp : ∀ w ∈ ws, w ≠ [] ∧ ∀ c ∈ w, c.isWhitespace = false) :
    trimChars (joinWords ws) = joinWords ws := by
  cases ws with
  | nil => rfl
  | cons w ws' =>
    have hw := hp w (List.mem_cons_self w ws')
    match w, hw.1 with
    | c :: wt, _ =>
      obtain ⟨t, ht⟩ := joinWords_head c wt ws'
      have h1 : dropWS (joinWords ((c :: wt) :: ws')) = joinWords ((c :: wt) :: ws') := by
        apply dropWS_eq_self
        intro d u hdu
        rw [ht] at hdu
        cases hdu
        exact hw.2 c (List.mem_cons_self c wt)
      obtain ⟨c', t', hrev, hc'⟩ := joinWords_reverse_head ((c :: wt) :: ws') (by simp) hp
      have h2 : dropWS ((joinWords ((c :: wt) :: ws')).reverse) =
          (joinWords ((c :: wt) :: ws')).reverse := by
        apply dropWS_eq_self
        intro d u hdu
        rw [hrev] at hdu
        cases hdu
        exact hc'
      rw [trimChars, h1, h2, List.reverse_reverse]

/-- The character list underlying `String.mk` is the argument itself. -/
theorem string_data_mk (l : List Char) : (String.mk l).data = l := rfl

/-- A packed character list is the empty string exactly when the list is empty. -/
theorem string_mk_eq_empty_iff (l : List Char) : String.mk l = "" ↔ l = [] := by
  constructor
  · intro h
    have h2 := congrArg String.data h
    simpa using h2
  · intro h
    rw [h]

/-- Characters surviving punctuation removal are fixed by lower-casing (they
came out of the lower-casing map). -/
theorem punctFiltered_toLower_fixed {topic : String} {c : Char}
    (h : c ∈ punctFiltered topic) : c.toLower = c := by
  rw [punctFiltered, List.mem_filter] at h
  have h2 := mem_of_mem_trimChars h.1
  rw [List.mem_map] at h2
  rcases h2 with ⟨c₀, _, hc⟩
  rw [← hc]
  exact char_toLower_idem c₀

/-- Characters surviving punctuation removal satisfy the kept character class. -/
theorem punctFiltered_kept {topic : String} {c : Char}
    (h : c ∈ punctFiltered topic) : (isWordChar c || c.isWhitespace) = true := by
  rw [punctFiltered, List.mem_filter] at h
  exact h.2

/-- On non-empty input, `normalize_topic` is the space-joining of `normWords`. -/
theorem normalize_topic_eq_join {topic : String} (h : topic ≠ "") :
    normalize_topic topic = String.mk (joinWords (normWords topic)) := by
  rw [normalize_topic, if_neg h]
  rfl

/-- Words of the normalization are non-empty and whitespace-free. -/
theorem normWords_props {topic : String} :
    ∀ w ∈ normWords topic, w ≠ [] ∧ ∀ c ∈ w, c.isWhitespace = false := by
  intro w hw
  have := words_mem_props _ _ (Nat.le_refl _) w hw
  exact ⟨this.1, fun c hc => (this.2 c hc).1⟩

/-- Characters of words of the normalization survive punctuation removal. -/
theorem normWords_chars {topic : String} :
    ∀ w ∈ normWords topic, ∀ c ∈ w, c ∈ punctFiltered topic := by
  intro w hw c hc
  have := words_mem_props _ _ (Nat.le_refl _) w hw
  exact mem_of_mem_stripLeadingPhrase prefixes_to_remove ((this.2 c hc).2)

/-- Idempotence of normalization under the stated side condition: if the
normalized topic does not itself begin with a removable prefix phrase, then
normalizing it again changes nothing. -/
theorem normalize_idem_aux {x : String}
    (h : startsWithListed (normalize_topic x) = false) :
    normalize_topic (normalize_topic x) = normalize_topic x := by
  by_cases hx : x = ""
  · subst hx
    rfl
  · rw [normalize_topic_eq_join hx] at h ⊢
    by_cases hwnil : normWords x = []
    · rw [hwnil]
      rfl
    · obtain ⟨w₀, ws', hwe⟩ : ∃ w₀ ws', normWords x = w₀ :: ws' := by
        cases hn : normWords x with
        | nil => exact absurd hn hwnil
        | cons a b => exact ⟨a, b, rfl⟩
      have hp : ∀ w ∈ normWords x, w ≠ [] ∧ ∀ c ∈ w, c.isWhitespace = false :=
        normWords_props
      have hyne : String.mk (joinWords (normWords x)) ≠ "" := by
        rw [Ne, string_mk_eq_empty_iff, hwe]
        exact joinWords_ne_nil (hp w₀ (hwe ▸ List.mem_cons_self w₀ ws')).1
      rw [normalize_topic, if_neg hyne]
      have hchar : ∀ c ∈ joinWords (normWords x),
          c.toLower = c ∧ (isWordChar c || c.isWhitespace) = true := by
        intro c hc
        rcases mem_joinWords hc with ⟨w, hw, hcw⟩ | hsp
        · have hm := normWords_chars w hw c hcw
          exact ⟨punctFiltered_toLower_fixed hm, punctFiltered_kept hm⟩
        · subst hsp
          constructor
          · rfl
          · rfl
      have hmap : (joinWords (normWords x)).map Char.toLower = joinWords (normWords x) :=
        map_eq_self_of_fixed (fun c hc => (hchar c hc).1)
      have hfix : punctFiltered (String.mk (joinWords (normWords x))) =
          joinWords (normWords x) := by
        rw [punctFiltered, string_data_mk, hmap, trimChars_joinWords hp]
        exact List.filter_eq_self.mpr (fun c hc => (hchar c hc).2)
      have hnopre : ∀ p ∈ prefixes_to_remove,
          p.data.isPrefixOf (joinWords (normWords x)) = false := by
        rw [startsWithListed] at h
        intro p hpp
        rw [Bool.eq_false_iff]
        exact List.any_eq_false.mp h p hpp
      rw [hfix, stripLeadingPhrase_eq_self prefixes_to_remove hnopre,
        words_joinWords hp]

/-- Filtering by a predicate implied by the search predicate does not change
the result of `find?`. -/
theorem find?_filter_of_imp {α : Type} {p q : α → Bool}
    (h : ∀ e, p e = true → q e = true) :
    ∀ (l : List α), (l.filter q).find? p = l.find? p
  | [] => rfl
  | a :: l => by
    cases hq : q a with
    | false =>
      have hp : p a = false := by
        cases hpa : p a
        · rfl
        · rw [h a hpa] at hq; cases hq
      rw [List.filter_cons_of_neg (by simp [hq]), List.find?_cons_of_neg _ (by simp [hp])]
      exact find?_filter_of_imp h l
    | true =>
      rw [List.filter_cons_of_pos (by simp [hq])]
      cases hpa : p a with
      | false =>
        rw [List.find?_cons_of_neg _ (by simp [hpa]), List.find?_cons_of_neg _ (by simp [hpa])]
        exact find?_filter_of_imp h l
      | true =>
        rw [List.find?_cons_of_pos _ (by simp [hpa]), List.find?_cons_of_pos _ (by simp [hpa])]

/-- Reading the cache after an upsert: the written key returns the new
explanation, any other key reads through to the previous store. -/
theorem get_save (db : List CacheEntry) (topic level explanation t l : String) :
    get_cached_explanation (save_explanation db topic level explanation) t l =
      if normalize_topic topic = normalize_topic t ∧ lowerStr level = lowerStr l
      then some explanation
      else get_cached_explanation db t l := by
  rw [save_explanation, get_cached_explanation, List.find?_append]
  by_cases h : normalize_topic topic = normalize_topic t ∧ lowerStr level = lowerStr l
  · rw [if_pos h]
    have h1 : (db.filter fun e =>
        !(e.topic == normalize_topic topic && e.level == lowerStr level)).find?
        (fun e => e.topic == normalize_topic t && e.level == lowerStr l) = none := by
      rw [List.find?_eq_none]
      intro e he hmatch
      rw [List.mem_filter] at he
      rw [← h.1, ← h.2] at hmatch
      rw [hmatch] at he
      simp at he
    rw [h1]
    simp [h.1, h.2]
  · rw [if_neg h]
    have h2 : ((⟨normalize_topic topic, lowerStr level, explanation⟩ : CacheEntry).topic ==
        normalize_topic t && (⟨normalize_topic topic, lowerStr level, explanation⟩ :
          CacheEntry).level == lowerStr l) = false := by
      simp only [Bool.and_eq_true, beq_iff_eq]
      by_contra hc
      rw [Bool.not_eq_false, Bool.and_eq_true] at hc
      exact h ⟨by simpa using hc.1, by simpa using hc.2⟩
    rw [List.find?_cons_of_neg _ (by simp [h2]), List.find?_nil]
    rw [find?_filter_of_imp]
    · rw [Option.or_none, get_cached_explanation]
    · intro e he
      cases hab : (e.topic == normalize_topic topic && e.level == lowerStr level) with
      | false => simp
      | true =>
        exfalso
        apply h
        simp only [Bool.and_eq_true, beq_iff_eq] at hab he
        exact ⟨hab.1.symm.trans he.1, hab.2.symm.trans he.2⟩

/-- Reading after a left-fold of upserts: the most recent matching put wins,
otherwise the read falls through to the initial store. -/
theorem get_foldl_save (t l : String) :
    ∀ (ps : List PutReq) (db : List CacheEntry),
      get_cached_explanation
        (ps.foldl (fun d p => save_explanation d p.topic p.level p.explanation) db) t l =
        ((ps.reverse.find? (fun p => normalize_topic p.topic == normalize_topic t &&
            lowerStr p.level == lowerStr l)).map PutReq.explanation).or
          (get_cached_explanation db t l)
  | [], db => by simp
  | p :: ps, db => by
    rw [List.foldl_cons, get_foldl_save t l ps, List.reverse_cons, List.find?_append]
    cases hf : ps.reverse.find? (fun q => normalize_topic q.topic == normalize_topic t &&
        lowerStr q.level == lowerStr l) with
    | some q => simp
    | none =>
      rw [get_save]
      by_cases hp : normalize_topic p.topic = normalize_topic t ∧ lowerStr p.level = lowerStr l
      · rw [if_pos hp, List.find?_cons_of_pos _ (by simp [hp.1, hp.2])]
        simp
      · rw [if_neg hp, List.find?_cons_of_neg _ (by simp only [Bool.and_eq_true, beq_iff_eq]; exact hp)]
        simp


/-- Lower-casing preserves string length. -/
theorem lowerStr_length (s : String) : (lowerStr s).length = s.length := by
  rw [lowerStr]
  show (s.data.map Char.toLower).length = s.data.length
  rw [List.length_map]

/-- Stripping the empty string yields the empty string. -/
theorem strTrim_empty : strTrim "" = "" := rfl

/-- The acceptance condition actually implemented by `validate_ai_response`:
non-empty, no invalid indicator contained, and not (stripped length below 100
together with a contained refusal phrase). -/
theorem validate_ai_response_iff (s t : String) :
    validate_ai_response s t = true ↔
      (s ≠ "" ∧ (∀ ind ∈ invalid_indicators, strContains (lowerStr s) ind = false) ∧
        ¬((strTrim s).length < 100 ∧ ∃ p ∈ refusal_phrases, strContains (lowerStr s) p = true)) := by
  rw [validate_ai_response]
  by_cases h1 : s = ""
  · simp [h1]
  · rw [if_neg h1]
    by_cases h2 : (invalid_indicators.any fun ind => strContains (lowerStr s) ind) = true
    · rw [if_pos h2]
      constructor
      · intro hf; cases hf
      · rintro ⟨-, hind, -⟩
        rcases List.any_eq_true.mp h2 with ⟨ind, hmem, hc⟩
        rw [hind ind hmem] at hc
        cases hc
    · rw [if_neg h2]
      have h2' := Bool.eq_false_iff.mpr h2
      have hind : ∀ ind ∈ invalid_indicators, strContains (lowerStr s) ind = false := by
        intro ind hmem
        rw [Bool.eq_false_iff]
        exact List.any_eq_false.mp h2' ind hmem
      by_cases h3 : (decide ((strTrim s).length < 100) &&
          refusal_phrases.any fun p => strContains (lowerStr s) p) = true
      · rw [if_pos h3]
        rw [Bool.and_eq_true, decide_eq_true_eq] at h3
        rcases List.any_eq_true.mp h3.2 with ⟨p, hpmem, hpc⟩
        constructor
        · intro hf; cases hf
        · rintro ⟨-, -, hno⟩
          exact absurd ⟨h3.1, p, hpmem, hpc⟩ hno
      · rw [if_neg h3]
        have h3' := Bool.eq_false_iff.mpr h3
        simp only [true_iff]
        refine ⟨h1, hind, ?_⟩
        rintro ⟨hlen, p, hpmem, hpc⟩
        rcases Bool.and_eq_false_iff.mp h3' with h4 | h4
        · rw [decide_eq_false_iff_not] at h4
          exact h4 hlen
        · exact (List.any_eq_false.mp h4 p hpmem) hpc

/-- Every name in the first-name block-list is a single word. -/
theorem names_single_word : ∀ n ∈ common_first_names, (pySplit n).length = 1 := by
  decide

/-- A word character is not whitespace. -/
theorem isWordChar_not_ws {c : Char} (h : isWordChar c = true) : c.isWhitespace = false := by
  cases hw : c.isWhitespace
  · rfl
  · exfalso
    simp only [Char.isWhitespace, Bool.or_eq_true, decide_eq_true_eq] at hw
    have h32 : c ≠ ' ' := fun he => by rw [he] at h; exact absurd h (by decide)
    have h9 : c ≠ '\t' := fun he => by rw [he] at h; exact absurd h (by decide)
    have h13 : c ≠ '\r' := fun he => by rw [he] at h; exact absurd h (by decide)
    have h10 : c ≠ '\n' := fun he => by rw [he] at h; exact absurd h (by decide)
    tauto

/-- Two characters are equal exactly when their code points are equal. -/
theorem char_eq_iff_toNat {a b : Char} : a = b ↔ a.toNat = b.toNat := by
  constructor
  · intro h
    rw [h]
  · intro h
    apply Char.ext
    exact UInt32.toNat.inj h

/-- Lower-casing preserves whitespace status (it only moves upper-case basic
latin letters, which are not whitespace, to lower-case ones). -/
theorem toLower_isWhitespace (c : Char) :
    (Char.toLower c).isWhitespace = c.isWhitespace := by
  have e1 : (' ' : Char).toNat = 32 := rfl
  have e2 : ('\t' : Char).toNat = 9 := rfl
  have e3 : ('\r' : Char).toNat = 13 := rfl
  have e4 : ('\n' : Char).toNat = 10 := rfl
  simp only [Char.toLower]
  by_cases h : c.toNat >= 65 ∧ c.toNat <= 90
  · rw [if_pos h]
    have hv : (Char.ofNat (c.toNat + 32)).toNat = c.toNat + 32 :=
      char_toNat_ofNat_valid (Or.inl (by omega))
    have h1 : (Char.ofNat (c.toNat + 32)).isWhitespace = false := by
      rw [Bool.eq_false_iff]
      intro hw
      simp only [Char.isWhitespace, Bool.or_eq_true, decide_eq_true_eq] at hw
      rcases hw with ((h2 | h2) | h2) | h2 <;> rw [char_eq_iff_toNat, hv] at h2 <;> omega
    have h0 : c.isWhitespace = false := by
      rw [Bool.eq_false_iff]
      intro hw
      simp only [Char.isWhitespace, Bool.or_eq_true, decide_eq_true_eq] at hw
      rcases hw with ((h2 | h2) | h2) | h2 <;> rw [char_eq_iff_toNat] at h2 <;> omega
    rw [h1, h0]
  · rw [if_neg h]

/-- Dropping leading whitespace commutes with lower-casing. -/
theorem dropWS_map_toLower : ∀ l : List Char,
    dropWS (l.map Char.toLower) = (dropWS l).map Char.toLower
  | [] => rfl
  | c :: cs => by
    rw [List.map_cons, dropWS, dropWS, toLower_isWhitespace]
    by_cases h : c.isWhitespace
    · rw [if_pos h, if_pos h, dropWS_map_toLower cs]
    · rw [if_neg h, if_neg h, List.map_cons]

/-- Stripping commutes with lower-casing. -/
theorem trimChars_map_toLower (l : List Char) :
    trimChars (l.map Char.toLower) = (trimChars l).map Char.toLower := by
  rw [trimChars, trimChars, dropWS_map_toLower, ← List.map_reverse, dropWS_map_toLower,
    ← List.map_reverse]

/-- Python lower-then-strip equals strip-then-lower (the form used in the
claims about the validator). -/
theorem strTrim_lowerStr (topic : String) :
    strTrim (lowerStr topic) = lowerStr (strTrim topic) := by
  rw [strTrim, lowerStr, string_data_mk, trimChars_map_toLower, lowerStr, strTrim,
    string_data_mk]


/-- C1 counterexample: normalization is not idempotent as claimed — normalizing
"explain what is gravity" yields "what is gravity", and normalizing that again
strips the further prefix "what is", yielding "gravity". -/
theorem normalize_topic_idem_cex :
    normalize_topic (normalize_topic "explain what is gravity") ≠
      normalize_topic "explain what is gravity" := by
  decide

/-- C1 (amended): normalize is idempotent on every input whose normalization
does not itself begin with one of the removable prefix phrases; in general a
second application may strip one further prefix, so the unconditional
idempotence claim fails. -/
theorem normalize_topic_conditional_idem (x : String)
    (h : startsWithListed (normalize_topic x) = false) :
    normalize_topic (normalize_topic x) = normalize_topic x :=
  normalize_idem_aux h

/-- C1 witness: the side condition and the conclusion at the input "gravity". -/
theorem normalize_topic_conditional_idem_witness :
    startsWithListed (normalize_topic "gravity") = false ∧
      normalize_topic (normalize_topic "gravity") = normalize_topic "gravity" :=
  ⟨by decide, normalize_topic_conditional_idem "gravity" (by decide)⟩

/-- C2 counterexample: the claimed equality fails — normalizing
"explain what is gravity" strips only "explain" and yields "what is gravity",
while normalizing "what is gravity" strips "what is" and yields "gravity". -/
theorem normalize_strips_one_phrase_cex :
    normalize_topic "explain what is gravity" ≠ normalize_topic "what is gravity" := by
  decide

/-- C2 (amended): prefix-stripping removes at most one prefix, the first
matching one in list order, and stops: once a phrase matches, the loop returns
immediately with the stripped remainder; concretely,
normalize "explain what is gravity" = "what is gravity" (not equal to
normalize "what is gravity" = "gravity"), and normalize
"tell me explain entropy" strips only "tell me", leaving "explain entropy". -/
theorem normalize_strips_one_phrase :
    (∀ (p : String) (ps : List String) (l : List Char),
        p.data.isPrefixOf l = true →
        stripLeadingPhrase (p :: ps) l = trimChars (l.drop p.data.length)) ∧
      normalize_topic "explain what is gravity" = "what is gravity" ∧
      normalize_topic "tell me explain entropy" = "explain entropy" ∧
      normalize_topic "what is gravity" = "gravity" := by
  refine ⟨?_, by decide, by decide, by decide⟩
  intro p ps l h
  rw [stripLeadingPhrase, if_pos h]

/-- C2 witness: the first-match equation applied at the phrase "tell me" on the
input "tell me explain entropy". -/
theorem normalize_strips_one_phrase_witness :
    stripLeadingPhrase ("tell me" :: ["what is"]) "tell me explain entropy".data =
      trimChars ("tell me explain entropy".data.drop "tell me".data.length) :=
  normalize_strips_one_phrase.1 "tell me" ["what is"] "tell me explain entropy".data (by decide)

/-- C10: prefix matching in normalize is not word-boundary-aware — the first
word "explained" merely begins with the listed prefix "explain" and is
truncated mid-word, giving "ed gravity". -/
theorem normalize_mid_word_truncation :
    normalize_topic "explained gravity" = "ed gravity" := by
  decide

/-- C3 counterexample: the raw topic "what is" passes the request validator
(two words, so the structural fallback accepts it), yet its normalization is
the empty string, so the cache-write stores an entry whose topic key is empty. -/
theorem validated_topic_empty_key_cex :
    (validate_educational_concept "what is").is_valid = true ∧
      normalize_topic "what is" = "" ∧
      save_explanation [] "what is" "student" "expl" =
        [⟨"", "student", "expl"⟩] := by
  refine ⟨by decide, by decide, by decide⟩

/-- C3 (amended): validation alone does not make the stored key non-empty (the
validated topic "what is" normalizes to ""); but for every topic — validated or
not — whose lower-cased, stripped, punctuation-filtered form contains a word
character and does not begin with a removable prefix phrase, the normalized
topic is non-empty, and the cache-write stores exactly that key. -/
theorem validated_topic_key_nonempty_cond (topic : String)
    (hv : (validate_educational_concept topic).is_valid = true)
    (hw : ∃ c ∈ punctFiltered topic, isWordChar c = true)
    (hp : ∀ p ∈ prefixes_to_remove, p.data.isPrefixOf (punctFiltered topic) = false) :
    normalize_topic topic ≠ "" ∧
      ∀ (db : List CacheEntry) (level e : String),
        (⟨normalize_topic topic, lowerStr level, e⟩ : CacheEntry) ∈
          save_explanation db topic level e := by
  obtain ⟨c, hcmem, hcw⟩ := hw
  have htne : topic ≠ "" := by
    intro he
    rw [he] at hcmem
    have hpe : punctFiltered "" = [] := rfl
    rw [hpe] at hcmem
    cases hcmem
  constructor
  · rw [normalize_topic_eq_join htne, Ne, string_mk_eq_empty_iff]
    simp only [normWords]
    rw [stripLeadingPhrase_eq_self prefixes_to_remove hp]
    have hwnn : words (punctFiltered topic) ≠ [] :=
      words_ne_nil ⟨c, hcmem, isWordChar_not_ws hcw⟩
    cases hwe : words (punctFiltered topic) with
    | nil => exact absurd hwe hwnn
    | cons w ws' =>
      have hprops := words_mem_props (punctFiltered topic).length (punctFiltered topic)
        (Nat.le_refl _) w (hwe ▸ List.mem_cons_self w ws')
      exact joinWords_ne_nil hprops.1
  · intro db level e
    simp [save_explanation]

/-- C3 witness: the hypotheses and both conclusions at the topic
"machine learning" (with store `[]`, level "student", explanation "expl"). -/
theorem validated_topic_key_nonempty_witness :
    normalize_topic "machine learning" ≠ "" ∧
      (⟨normalize_topic "machine learning", lowerStr "student", "expl"⟩ : CacheEntry) ∈
        save_explanation [] "machine learning" "student" "expl" := by
  have h := validated_topic_key_nonempty_cond "machine learning"
    (by decide) (by decide) (by decide)
  exact ⟨h.1, h.2 [] "student" "expl"⟩

/-- C4: the cache is a last-write-wins upsert store keyed by (normalized topic,
lower-cased level): after any sequence of puts from the empty store, a read
returns the explanation of the most recent put with a matching key (and nothing
otherwise); in particular put-then-get returns the put explanation, a second
put for the same key leaves only the second explanation retrievable, and a read
of a key never put is absent. -/
theorem cache_last_write_wins :
    (∀ (ps : List PutReq) (t l : String),
        get_cached_explanation (runPuts ps) t l =
          ((ps.reverse.find? (fun p => normalize_topic p.topic == normalize_topic t &&
              lowerStr p.level == lowerStr l)).map PutReq.explanation)) ∧
      (∀ (db : List CacheEntry) (t l e : String),
        get_cached_explanation (save_explanation db t l e) t l = some e) ∧
      (∀ (db : List CacheEntry) (t l e₁ e₂ : String),
        get_cached_explanation (save_explanation (save_explanation db t l e₁) t l e₂) t l =
          some e₂) ∧
      get_cached_explanation (runPuts [⟨"machine learning", "student", "e1"⟩])
        "entropy" "student" = none := by
  have hone : ∀ (ps : List PutReq) (t l : String),
      get_cached_explanation (runPuts ps) t l =
        ((ps.reverse.find? (fun p => normalize_topic p.topic == normalize_topic t &&
            lowerStr p.level == lowerStr l)).map PutReq.explanation) := by
    intro ps t l
    rw [runPuts, get_foldl_save]
    have hnil : get_cached_explanation [] t l = none := rfl
    rw [hnil, Option.or_none]
  refine ⟨hone, ?_, ?_, ?_⟩
  · intro db t l e
    rw [get_save, if_pos ⟨rfl, rfl⟩]
  · intro db t l e₁ e₂
    rw [get_save, if_pos ⟨rfl, rfl⟩]
  · rw [hone]
    decide

/-- C9 counterexample: the response-time budget for the deepest levels is not
shorter — both providers use 12 seconds for "graduate"/"advanced" and 10
seconds for the shallower levels. -/
theorem timeout_shorter_claim_cex :
    google_timeout_duration "graduate" = 12 ∧ google_timeout_duration "eli5" = 10 ∧
      ¬(google_timeout_duration "graduate" < google_timeout_duration "eli5") ∧
      openrouter_timeout_duration "advanced" = 12 ∧
      openrouter_timeout_duration "student" = 10 ∧
      ¬(openrouter_timeout_duration "advanced" < openrouter_timeout_duration "student") := by
  decide

/-- C9 (amended): for both providers, the response-time budget used for the two
deepest levels (graduate, advanced) is strictly longer (12s) than the budget
used for the two shallower levels (eli5, student — 10s). -/
theorem timeout_deep_levels_longer (l l' : String)
    (hd : lowerStr l ∈ (["graduate", "advanced"] : List String))
    (hs : lowerStr l' ∈ (["eli5", "student"] : List String)) :
    google_timeout_duration l' < google_timeout_duration l ∧
      openrouter_timeout_duration l' < openrouter_timeout_duration l := by
  have hnot : lowerStr l' ∉ (["graduate", "advanced"] : List String) := by
    rcases List.mem_cons.mp hs with h | h
    · rw [h]; decide
    · rcases List.mem_cons.mp h with h1 | h1
      · rw [h1]; decide
      · cases h1
  constructor
  · rw [google_timeout_duration, google_timeout_duration, if_pos hd, if_neg hnot]
    decide
  · rw [openrouter_timeout_duration, openrouter_timeout_duration, if_pos hd, if_neg hnot]
    decide

/-- C9 witness: the amended comparison at levels "graduate" and "eli5". -/
theorem timeout_deep_levels_witness :
    google_timeout_duration "eli5" < google_timeout_duration "graduate" ∧
      openrouter_timeout_duration "eli5" < openrouter_timeout_duration "graduate" :=
  timeout_deep_levels_longer "graduate" "eli5" (by decide) (by decide)

set_option maxRecDepth 100000 in
/-- C6 counterexample: a text of raw length exactly 100 ("i cannot" plus 92
trailing spaces) satisfies the acceptance condition of the claim — its raw length is
not below 100 — yet the code strips it to length 8, finds the refusal phrase,
and rejects it. -/
theorem validate_ai_response_untrimmed_cex :
    responseAcceptedPerClaim resp100 ∧ resp100.length = 100 ∧
      validate_ai_response resp100 "topic" = false := by
  refine ⟨?_, by decide, by decide⟩
  simp only [responseAcceptedPerClaim]
  decide

set_option maxRecDepth 100000 in
/-- C6 (amended): the response validator accepts a text iff it is non-empty,
contains none of the invalid-indicator phrases (regardless of length), and it
is not the case that its STRIPPED length is below 100 while it contains a
refusal phrase; any text containing the person-name indicator phrase is
rejected, the 50-character refusal is rejected, and the 500-character text
containing "i cannot" is accepted. -/
theorem validate_ai_response_spec :
    (∀ s t : String, validate_ai_response s t = true ↔
        (s ≠ "" ∧ (∀ ind ∈ invalid_indicators, strContains (lowerStr s) ind = false) ∧
          ¬((strTrim s).length < 100 ∧
            ∃ p ∈ refusal_phrases, strContains (lowerStr s) p = true))) ∧
      (∀ s t : String,
        strContains (lowerStr s) ("appears to be a person" ++ apos ++ "s name") = true →
          validate_ai_response s t = false) ∧
      validate_ai_response resp50 "topic" = false ∧ resp50.length = 50 ∧
      validate_ai_response resp500 "topic" = true ∧ resp500.length = 500 := by
  refine ⟨validate_ai_response_iff, ?_, by decide, by decide, by decide, by decide⟩
  intro s t hc
  rw [Bool.eq_false_iff]
  intro htrue
  have h := (validate_ai_response_iff s t).mp htrue
  have hno := h.2.1 ("appears to be a person" ++ apos ++ "s name") (by decide)
  rw [hno] at hc
  cases hc

/-- C6 witness: a text containing the person-name indicator is rejected. -/
theorem validate_ai_response_spec_witness :
    validate_ai_response
      ("This text appears to be a person" ++ apos ++ "s name, so no answer.") "topic" =
      false :=
  validate_ai_response_spec.2.1 _ "topic" (by decide)

set_option maxRecDepth 100000 in
/-- C7 counterexample: a 201-character topic meets every condition of the claim
(not in the allow-list, two words, first a blocked name, second not a
continuation word and longer than 2), yet the validator rejects it with the
length message, not as a likely personal name — the claim omits the
higher-precedence length rule. -/
theorem two_word_personal_name_cex :
    lowerStr (strTrim longNameTopic) ∉ educational_concepts ∧
      pySplit (lowerStr (strTrim longNameTopic)) =
        ["john", String.mk (List.replicate 196 'b')] ∧
      "john" ∈ common_first_names ∧
      String.mk (List.replicate 196 'b') ∉ topic_continuation_words ∧
      (String.mk (List.replicate 196 'b')).length > 2 ∧
      validate_educational_concept longNameTopic =
        ⟨false, some "Topic must be less than 200 characters"⟩ ∧
      ("Topic must be less than 200 characters" : String) ≠ personalNameMsg := by
  refine ⟨by decide, by decide, by decide, by decide, by decide, by decide, by decide⟩

/-- C7 (amended): for every topic within the length bounds (lower-cased trimmed
length between 2 and 200) that is not in the educational allow-list and splits
into exactly two whitespace-separated words with the first in the first-name
block-list, the second not a topic-continuation word and longer than 2
characters, the validator rejects with the personal-name-heuristic message;
"john smith" is so rejected, "john" alone is rejected by the exact block-list
rule, and "machine learning" is accepted. -/
theorem two_word_personal_name_rejection :
    (∀ (t w1 w2 : String),
        2 ≤ (lowerStr (strTrim t)).length → (lowerStr (strTrim t)).length ≤ 200 →
        lowerStr (strTrim t) ∉ educational_concepts →
        pySplit (lowerStr (strTrim t)) = [w1, w2] →
        w1 ∈ common_first_names → w2 ∉ topic_continuation_words → w2.length > 2 →
        validate_educational_concept t = ⟨false, some personalNameMsg⟩) ∧
      validate_educational_concept "john smith" = ⟨false, some personalNameMsg⟩ ∧
      validate_educational_concept "john" = ⟨false, some (firstNameMsg "john")⟩ ∧
      validate_educational_concept "machine learning" = ⟨true, none⟩ := by
  refine ⟨?_, by decide, by decide, by decide⟩
  intro t w1 w2 h2 h200 hallow hsplit hfirst hsecond hlen
  have htne : t ≠ "" := by
    intro he
    rw [he] at hsplit
    have hempty : pySplit (lowerStr (strTrim "")) = [] := rfl
    rw [hempty] at hsplit
    cases hsplit
  have hnames : lowerStr (strTrim t) ∉ common_first_names := by
    intro hmem
    have h1 := names_single_word _ hmem
    rw [hsplit] at h1
    simp at h1
  have htw : twoWordPersonalName (pySplit (lowerStr (strTrim t))) = true := by
    rw [hsplit, twoWordPersonalName]
    simp only [Bool.and_eq_true, decide_eq_true_eq]
    exact ⟨⟨hfirst, hsecond⟩, hlen⟩
  simp only [validate_educational_concept]
  simp only [strTrim_lowerStr]
  rw [if_neg htne, if_neg (by omega), if_neg (by omega), if_neg hallow, if_neg hnames,
    if_pos htw]

/-- C7 witness: the heuristic implication applied at "john smith". -/
theorem two_word_personal_name_witness :
    validate_educational_concept "john smith" = ⟨false, some personalNameMsg⟩ :=
  two_word_personal_name_rejection.1 "john smith" "john" "smith" (by decide) (by decide)
    (by decide) (by decide) (by decide) (by decide) (by decide)

set_option maxRecDepth 100000 in
/-- C8: every topic of trimmed length 1 is rejected with the minimum-length
message, every topic of trimmed length above 200 is rejected with the
maximum-length message, and a topic of exactly 200 trimmed characters passes
the length rule (a 200-character topic that triggers no other rule is
accepted). -/
theorem validate_length_rule :
    (∀ t : String, (strTrim t).length = 1 →
        validate_educational_concept t =
          ⟨false, some "Topic must be at least 2 characters long"⟩) ∧
      (∀ t : String, (strTrim t).length > 200 →
        validate_educational_concept t =
          ⟨false, some "Topic must be less than 200 characters"⟩) ∧
      validate_educational_concept (String.mk (List.replicate 200 'a')) = ⟨true, none⟩ := by
  refine ⟨?_, ?_, by decide⟩
  · intro t hlen
    have htne : t ≠ "" := by
      intro he
      rw [he, strTrim_empty] at hlen
      exact absurd hlen (by decide)
    simp only [validate_educational_concept]
    simp only [strTrim_lowerStr]
    rw [if_neg htne, if_pos (by rw [lowerStr_length]; omega)]
  · intro t hlen
    have htne : t ≠ "" := by
      intro he
      rw [he, strTrim_empty] at hlen
      exact absurd hlen (by decide)
    simp only [validate_educational_concept]
    simp only [strTrim_lowerStr]
    rw [if_neg htne, if_neg (by rw [lowerStr_length]; omega),
      if_pos (by rw [lowerStr_length]; omega)]

set_option maxRecDepth 100000 in
/-- C8 witness: the two rejection rules at concrete inputs of trimmed length 1
and 201. -/
theorem validate_length_rule_witness :
    validate_educational_concept "a" =
        ⟨false, some "Topic must be at least 2 characters long"⟩ ∧
      validate_educational_concept (String.mk (List.replicate 201 'a')) =
        ⟨false, some "Topic must be less than 200 characters"⟩ :=
  ⟨validate_length_rule.1 "a" (by decide),
    validate_length_rule.2.1 (String.mk (List.replicate 201 'a')) (by decide)⟩

/-- C5: with `force_refresh = true`, a request that passes the field checks and
validation never consults the cache — the outcome is the same for every store —
and on a provider success that passes the response validator, the entry is
(re)written and the response carries `cached = false, regenerated = true`. -/
theorem explain_force_refresh_regenerates (db : List CacheEntry)
    (topic level : String) (provider : String → String → Except String String) (e : String)
    (ht : strTrim topic ≠ "") (hl : strTrim level ≠ "")
    (hlv : lowerStr (strTrim level) ∈ valid_levels)
    (hv : (validate_educational_concept (strTrim topic)).is_valid = true)
    (hprov : provider (strTrim topic) (strTrim level) = Except.ok e)
    (hresp : validate_ai_response e (strTrim topic) = true) :
    explain_concept db topic level true provider =
      (save_explanation db (strTrim topic) (strTrim level) e,
        ExplainOutcome.ok e false true) := by
  simp only [explain_concept]
  rw [if_neg ht, if_neg hl, if_neg (not_not_intro hlv), if_neg (by simp [hv])]
  simp only [if_true, hprov, hresp, if_pos]

/-- C5 witness: the conclusion at topic "machine learning", level "student",
the empty store, and a constant provider. -/
theorem explain_force_refresh_witness :
    explain_concept [] "machine learning" "student" true
        (fun _ _ => Except.ok "sample explanation") =
      (save_explanation [] "machine learning" "student" "sample explanation",
        ExplainOutcome.ok "sample explanation" false true) := by
  have h := explain_force_refresh_regenerates [] "machine learning" "student"
    (fun _ _ => Except.ok "sample explanation") "sample explanation"
    (by decide) (by decide) (by decide) (by decide) rfl (by decide)
  simpa using h
